import Mathlib

/-!
Shallow embedding of the appstats handler (src/handler.go): the Details
trace-aggregation flow and the File source-context flow, with the external
collaborators (memcache, gob decoding, the file system, the renderer)
abstracted as parameters.
-/

namespace Appstats

/-- Modelled from the spec: one remote-call event (spec CallEvent; the RPC
stat type referenced as `r.Name()`, `r.Cost`, `r.Duration` in handler.go is
declared outside src/). `cost` is the numeric billing cost, `duration` the
elapsed time serialized as an integer count of a fixed unit. -/
structure RPCStat where
  name : String
  cost : Int
  duration : Int
deriving DecidableEq

/-- Modelled from the spec: the decoded trace record (spec TraceRecord);
only the ordered call list is used by the Details flow in src/. -/
structure RequestStats where
  RPCStats : List RPCStat
deriving DecidableEq

/-- Modelled from the spec: the gob-encoded envelope `stats_full` holding
the header map and the stats record (declared outside src/). -/
structure StatsFull where
  Header : List (String × String)
  Stats : RequestStats
deriving DecidableEq

/-- The per-name accumulator of the Details loop (`cVal` in handler.go:
a count and a running cost). -/
structure CVal where
  count : Nat
  cost : Int
deriving DecidableEq

/-- One aggregate row (`StatByName` in handler.go, built at lines 138-143). -/
structure StatByName where
  Name : String
  Count : Nat
  Cost : Int
  Duration : Int
deriving DecidableEq

/-- Lookup in an association list modelling a Go map read. -/
def mapGet (m : List (String × α)) (k : String) : Option α :=
  match m with
  | [] => none
  | (k', v') :: t => if k' = k then some v' else mapGet t k

/-- Assignment `m[k] = v` on a Go map, modelled on an association list that
keeps insertion order: an existing key is updated in place, a new key is
appended. Go's map iteration order is arbitrary; the determinism theorem
for the sort shows the final output does not depend on this choice. -/
def mapSet (m : List (String × α)) (k : String) (v : α) : List (String × α) :=
  match m with
  | [] => [(k, v)]
  | (k', v') :: t => if k' = k then (k, v) :: t else (k', v') :: mapSet t k v

/-- The mutable state of the aggregation loop in Details (handler.go lines
118-120): `byCount`, `durationCount` and the running total `_real`. -/
structure DetailsState where
  byCount : List (String × CVal)
  durationCount : List (String × Int)
  real : Int
deriving DecidableEq

/-- One iteration of the aggregation loop (handler.go lines 121-134):
if the name is new, seed `durationCount[rpc] = 0`; bump count and cost in
`byCount[rpc]`; add the duration to `durationCount[rpc]` and to `_real`. -/
def detailsStep (st : DetailsState) (r : RPCStat) : DetailsState :=
  let rpc := r.name
  let dc0 := if (mapGet st.byCount rpc).isSome then st.durationCount
             else mapSet st.durationCount rpc 0
  let v0 := (mapGet st.byCount rpc).getD ⟨0, 0⟩
  let v1 : CVal := ⟨v0.count + 1, v0.cost + r.cost⟩
  { byCount := mapSet st.byCount rpc v1
    durationCount := mapSet dc0 rpc ((mapGet dc0 rpc).getD 0 + r.duration)
    real := st.real + r.duration }

/-- The whole aggregation loop over the record's calls, from empty maps. -/
def detailsLoop (calls : List RPCStat) : DetailsState :=
  calls.foldl detailsStep ⟨[], [], 0⟩

/-- The row-building loop (handler.go lines 136-144): one `StatByName` per
entry of `byCount`, with the duration looked up in `durationCount`. -/
def buildRows (st : DetailsState) : List StatByName :=
  st.byCount.map (fun p => ⟨p.1, p.2.count, p.2.cost, (mapGet st.durationCount p.1).getD 0⟩)

/-- Modelled from the spec: the `Less` method of the sort interface
`StatsByName` (declared outside src/; `sort.Sort(allStatsByCount)` at
handler.go line 145 uses it). Rows are ordered descending by total cost,
ties broken descending by count, remaining ties ascending by name. -/
def statLess (a b : StatByName) : Bool :=
  if a.Cost = b.Cost then
    if a.Count = b.Count then decide (a.Name < b.Name)
    else decide (b.Count < a.Count)
  else decide (b.Cost < a.Cost)

/-- The non-strict order induced by `statLess`: `sort.Sort` guarantees the
result is sorted with respect to it. -/
def statLe (a b : StatByName) : Bool := !statLess b a

/-- The sorted aggregate rows for a call list: build rows, then sort.
`sort.Sort` is an unstable comparison sort; it is modelled by `mergeSort`
on `statLe`, and the determinism theorem shows every sort of any traversal
order of the rows gives this same list. -/
def allStatsByCount (calls : List RPCStat) : List StatByName :=
  List.mergeSort (buildRows (detailsLoop calls)) statLe

/-- The view handed to the details template (the anonymous struct at
handler.go lines 93-103). -/
structure DetailsView where
  Env : List (String × String)
  Record : Option RequestStats
  Header : List (String × String)
  AllStatsByCount : List StatByName
  Real : Int
deriving DecidableEq

/-- The zero view rendered on a cache miss or a decode failure: only the
environment metadata is populated (handler.go lines 93-103). -/
def emptyDetailsView (appId : String) : DetailsView :=
  { Env := [("APPLICATION_ID", appId)]
    Record := none
    Header := []
    AllStatsByCount := []
    Real := 0 }

/-- The Details flow (handler.go lines 88-153). `item` is the memcache
lookup result (none on a Get error / miss) and `decode` the gob decoder
(none on a decode error); both are external collaborators. On either
failure the zero view is rendered; on success the record is aggregated,
sorted and packaged. -/
def Details (appId : String) (item : Option β) (decode : β → Option StatsFull) : DetailsView :=
  match item with
  | none => emptyDetailsView appId
  | some bytes =>
    match decode bytes with
    | none => emptyDetailsView appId
    | some full =>
      let st := detailsLoop full.Stats.RPCStats
      { Env := [("APPLICATION_ID", appId)]
        Record := some full.Stats
        Header := full.Header
        AllStatsByCount := List.mergeSort (buildRows st) statLe
        Real := st.real }

/-- Go's `strings.Split(s, "\n")` on the file content viewed as a character
list: the segments between newline characters, always one more segment than
there are newlines. -/
def splitNl : List Char → List (List Char)
  | [] => [[]]
  | c :: rest =>
    if c = '\n' then [] :: splitNl rest
    else
      match splitNl rest with
      | [] => [[c]]
      | h :: t => (c :: h) :: t

/-- The map-building loop of File (handler.go lines 167-170):
`for k, v := range strings.Split(...) { fp[k+1] = v }`, i.e. the lines
numbered consecutively starting from `i`. Keys are distinct, so the
association list is a faithful model of the Go map `fp`. -/
def numberFrom : Nat → List (List Char) → List (Nat × String)
  | _, [] => []
  | i, v :: rest => (i, ⟨v⟩) :: numberFrom (i + 1) rest

/-- The 1-based line map `fp` built by File from the raw file content. -/
def buildFp (content : List Char) : List (Nat × String) :=
  numberFrom 1 (splitNl content)

/-- Decimal digit run of Go's `strconv.Atoi`: all characters must be
digits and there must be at least one. -/
def parseDigitsAux : List Char → Nat → Option Nat
  | [], acc => some acc
  | c :: rest, acc =>
    if '0' ≤ c ∧ c ≤ '9' then parseDigitsAux rest (acc * 10 + (c.toNat - '0'.toNat))
    else none

/-- Nonempty all-digit parse. -/
def parseDigits : List Char → Option Nat
  | [] => none
  | c :: rest => parseDigitsAux (c :: rest) 0

/-- Go's `strconv.Atoi` syntax: an optional sign followed by a nonempty
digit run; `none` on any syntax error (empty string, stray characters).
Machine-integer range clamping is not modelled: values are unbounded. -/
def parseGoInt (s : String) : Option Int :=
  match s.data with
  | '+' :: rest => (parseDigits rest).map (fun n => (n : Int))
  | '-' :: rest => (parseDigits rest).map (fun n => -(n : Int))
  | l => (parseDigits l).map (fun n => (n : Int))

/-- `lineno, _ := strconv.Atoi(n)` (handler.go line 158): the error is
discarded, so a syntax error leaves the zero value 0. -/
def atoi (s : String) : Int := (parseGoInt s).getD 0

/-- The view handed to the file template (handler.go lines 172-184). -/
structure FileView where
  Env : List (String × String)
  Filename : String
  Lineno : Int
  Fp : List (Nat × String)
deriving DecidableEq

/-- The File flow (handler.go lines 155-187). `readFile` is the external
file store (`ioutil.ReadFile`); on a read error the flow stops with
`serveError`, surfacing the error to the caller, otherwise it builds the
line map and serves the view. -/
def File (appId : String) (fname : String) (n : String)
    (readFile : String → Except String (List Char)) : Except String FileView :=
  let lineno := atoi n
  match readFile fname with
  | .error e => .error e
  | .ok f =>
    .ok { Env := [("APPLICATION_ID", appId)]
          Filename := fname
          Lineno := lineno
          Fp := buildFp f }

/-! Spec-side characterizations used to state the conservation claims. -/

/-- Number of call events with the given name. -/
def countOf (calls : List RPCStat) (n : String) : Nat :=
  (calls.filter (fun c => c.name = n)).length

/-- Total cost of the call events with the given name. -/
def costOf (calls : List RPCStat) (n : String) : Int :=
  ((calls.filter (fun c => c.name = n)).map RPCStat.cost).sum

/-- Total duration of the call events with the given name. -/
def durOf (calls : List RPCStat) (n : String) : Int :=
  ((calls.filter (fun c => c.name = n)).map RPCStat.duration).sum

/-- Sum of the durations of all call events. -/
def sumDur (calls : List RPCStat) : Int := (calls.map RPCStat.duration).sum

/-- Sum of the costs of all call events. -/
def sumCost (calls : List RPCStat) : Int := (calls.map RPCStat.cost).sum

/-- Append a name if it is not already present (first-occurrence order). -/
def insertName (ns : List String) (n : String) : List String :=
  if n ∈ ns then ns else ns ++ [n]

/-- The distinct call names in first-occurrence order: this is the key set
of `byCount` in insertion order. -/
def namesOf (calls : List RPCStat) : List String :=
  calls.foldl (fun ns c => insertName ns c.name) []

/-- The canonical value of the loop state after processing `pre`. -/
def canonState (pre : List RPCStat) : DetailsState :=
  { byCount := (namesOf pre).map (fun n => (n, ⟨countOf pre n, costOf pre n⟩))
    durationCount := (namesOf pre).map (fun n => (n, durOf pre n))
    real := sumDur pre }

/-- The canonical aggregate row for one name. -/
def rowOf (calls : List RPCStat) (n : String) : StatByName :=
  ⟨n, countOf calls n, costOf calls n, durOf calls n⟩

/-- The spec's row ordering relation: descending by total cost, ties broken
descending by count, remaining ties ascending by name. `statLe` decides it. -/
def specRowOrder (a b : StatByName) : Prop :=
  b.Cost < a.Cost ∨ (a.Cost = b.Cost ∧ (b.Count < a.Count ∨ (a.Count = b.Count ∧ a.Name ≤ b.Name)))

/-- Sample record: scenario A of the spec with integral costs. -/
def sampleCalls : List RPCStat :=
  [⟨"svcA.Get", 10, 10⟩, ⟨"svcA.Get", 15, 20⟩, ⟨"svcB.Fetch", 20, 50⟩]

/-- Sample decoded envelope for witnesses. -/
def sampleFull : StatsFull := ⟨[("Host", "example")], ⟨sampleCalls⟩⟩

/-! Association-list map lemmas. -/

theorem mapGet_map_names (ns : List String) (f : String → α) (k : String) :
    mapGet (ns.map fun n => (n, f n)) k = if k ∈ ns then some (f k) else none := by
  induction ns with
  | nil => simp [mapGet]
  | cons n t ih =>
    simp only [List.map_cons, mapGet, List.mem_cons]
    by_cases h : n = k
    · subst h; simp
    · simp only [h, if_false, ih]
      by_cases hk : k ∈ t <;> simp [hk, Ne.symm h]

theorem mapSet_fresh (m : List (String × α)) (k : String) (v : α)
    (h : ∀ p ∈ m, p.1 ≠ k) : mapSet m k v = m ++ [(k, v)] := by
  induction m with
  | nil => simp [mapSet]
  | cons p t ih =>
    have hp : p.1 ≠ k := h p (by simp)
    simp only [mapSet, hp, if_false, List.cons_append]
    rw [ih (fun q hq => h q (by simp [hq]))]

theorem mapSet_map_update (ns : List String) (f : String → α) (k : String) (v : α)
    (hnd : ns.Nodup) (hk : k ∈ ns) :
    mapSet (ns.map fun n => (n, f n)) k v = ns.map fun n => (n, if n = k then v else f n) := by
  induction ns with
  | nil => simp at hk
  | cons n t ih =>
    rcases List.nodup_cons.mp hnd with ⟨hn, hndt⟩
    by_cases h : n = k
    · subst h
      have htail : List.map (fun m => (m, if m = n then v else f m)) t
          = List.map (fun n => (n, f n)) t := by
        refine List.map_congr_left fun m hm => ?_
        have hmn : m ≠ n := fun e => hn (e ▸ hm)
        simp [hmn]
      simp [mapSet, htail]
    · have hkt : k ∈ t := by
        rcases List.mem_cons.mp hk with h' | h'
        · exact absurd h'.symm h
        · exact h'
      simp only [List.map_cons, mapSet, if_neg h, ih hndt hkt]

/-! Lemmas about the name list and the per-name sums. -/

theorem mem_insertName (ns : List String) (n k : String) :
    k ∈ insertName ns n ↔ k ∈ ns ∨ k = n := by
  unfold insertName
  by_cases h : n ∈ ns
  · simp only [h, if_true]
    constructor
    · exact Or.inl
    · rintro (hk | rfl) <;> [exact hk; exact h]
  · simp [h]

theorem nodup_insertName (ns : List String) (n : String) (hnd : ns.Nodup) :
    (insertName ns n).Nodup := by
  unfold insertName
  by_cases h : n ∈ ns
  · simpa [h]
  · simp [List.nodup_append, h, hnd]

theorem namesOf_append (pre rest : List RPCStat) :
    namesOf (pre ++ rest) = rest.foldl (fun ns c => insertName ns c.name) (namesOf pre) := by
  unfold namesOf
  exact List.foldl_append _ _ _ _

theorem namesOf_append_single (pre : List RPCStat) (c : RPCStat) :
    namesOf (pre ++ [c]) = insertName (namesOf pre) c.name := by
  rw [namesOf_append]; rfl

theorem foldl_insert_nodup :
    ∀ (calls : List RPCStat) (ns : List String), ns.Nodup →
      (calls.foldl (fun ns c => insertName ns c.name) ns).Nodup := by
  intro calls
  induction calls with
  | nil => intro ns h; simpa using h
  | cons c t ih =>
    intro ns h
    simpa using ih (insertName ns c.name) (nodup_insertName ns c.name h)

theorem namesOf_nodup (calls : List RPCStat) : (namesOf calls).Nodup :=
  foldl_insert_nodup calls [] List.nodup_nil

theorem mem_foldl_insert :
    ∀ (calls : List RPCStat) (ns : List String) (k : String),
      k ∈ calls.foldl (fun ns c => insertName ns c.name) ns ↔
        k ∈ ns ∨ ∃ c ∈ calls, c.name = k := by
  intro calls
  induction calls with
  | nil => intro ns k; simp
  | cons c t ih =>
    intro ns k
    simp only [List.foldl_cons, ih, mem_insertName, List.mem_cons]
    constructor
    · rintro ((hk | rfl) | ⟨d, hd, rfl⟩)
      · exact Or.inl hk
      · exact Or.inr ⟨c, Or.inl rfl, rfl⟩
      · exact Or.inr ⟨d, Or.inr hd, rfl⟩
    · rintro (hk | ⟨d, (rfl | hd), rfl⟩)
      · exact Or.inl (Or.inl hk)
      · exact Or.inl (Or.inr rfl)
      · exact Or.inr ⟨d, hd, rfl⟩

theorem mem_namesOf (calls : List RPCStat) (k : String) :
    k ∈ namesOf calls ↔ ∃ c ∈ calls, c.name = k := by
  unfold namesOf
  rw [mem_foldl_insert]
  simp

theorem countOf_append_single (pre : List RPCStat) (c : RPCStat) (n : String) :
    countOf (pre ++ [c]) n = countOf pre n + (if c.name = n then 1 else 0) := by
  unfold countOf
  rw [List.filter_append, List.length_append]
  by_cases h : c.name = n <;> simp [h]

theorem costOf_append_single (pre : List RPCStat) (c : RPCStat) (n : String) :
    costOf (pre ++ [c]) n = costOf pre n + (if c.name = n then c.cost else 0) := by
  unfold costOf
  rw [List.filter_append, List.map_append, List.sum_append]
  by_cases h : c.name = n <;> simp [h]

theorem durOf_append_single (pre : List RPCStat) (c : RPCStat) (n : String) :
    durOf (pre ++ [c]) n = durOf pre n + (if c.name = n then c.duration else 0) := by
  unfold durOf
  rw [List.filter_append, List.map_append, List.sum_append]
  by_cases h : c.name = n <;> simp [h]

theorem sumDur_append_single (pre : List RPCStat) (c : RPCStat) :
    sumDur (pre ++ [c]) = sumDur pre + c.duration := by
  unfold sumDur
  rw [List.map_append, List.sum_append]
  simp

theorem countOf_not_mem (pre : List RPCStat) (n : String)
    (h : n ∉ namesOf pre) : countOf pre n = 0 := by
  unfold countOf
  rw [List.length_eq_zero, List.filter_eq_nil_iff]
  intro c hc
  simp only [decide_eq_true_eq]
  intro e
  exact h ((mem_namesOf pre n).mpr ⟨c, hc, e⟩)

theorem costOf_not_mem (pre : List RPCStat) (n : String)
    (h : n ∉ namesOf pre) : costOf pre n = 0 := by
  unfold costOf
  have : pre.filter (fun c => c.name = n) = [] := by
    rw [List.filter_eq_nil_iff]
    intro c hc
    simp only [decide_eq_true_eq]
    intro e
    exact h ((mem_namesOf pre n).mpr ⟨c, hc, e⟩)
  simp [this]

theorem durOf_not_mem (pre : List RPCStat) (n : String)
    (h : n ∉ namesOf pre) : durOf pre n = 0 := by
  unfold durOf
  have : pre.filter (fun c => c.name = n) = [] := by
    rw [List.filter_eq_nil_iff]
    intro c hc
    simp only [decide_eq_true_eq]
    intro e
    exact h ((mem_namesOf pre n).mpr ⟨c, hc, e⟩)
  simp [this]

theorem mapGet_append_fresh (l : List (String × α)) (k : String) (v : α)
    (h : ∀ p ∈ l, p.1 ≠ k) : mapGet (l ++ [(k, v)]) k = some v := by
  induction l with
  | nil => simp [mapGet]
  | cons p t ih =>
    have hp : p.1 ≠ k := h p (by simp)
    simp only [List.cons_append, mapGet, hp, if_false]
    exact ih fun q hq => h q (by simp [hq])

theorem mapSet_append_last (l : List (String × α)) (k : String) (v w : α)
    (h : ∀ p ∈ l, p.1 ≠ k) : mapSet (l ++ [(k, v)]) k w = l ++ [(k, w)] := by
  induction l with
  | nil => simp [mapSet]
  | cons p t ih =>
    have hp : p.1 ≠ k := h p (by simp)
    simp only [List.cons_append, mapSet, hp, if_false, List.cons.injEq, true_and]
    exact ih fun q hq => h q (by simp [hq])

theorem keys_map_ne (ns : List String) (f : String → α) (m : String) (hm : m ∉ ns) :
    ∀ p ∈ ns.map (fun n => (n, f n)), p.1 ≠ m := by
  intro p hp
  rcases List.mem_map.mp hp with ⟨n, hn, rfl⟩
  exact fun e => hm (e ▸ hn)

/-- One loop iteration takes the canonical state for `pre` to the canonical
state for `pre ++ [c]`. -/
theorem detailsStep_canon (pre : List RPCStat) (c : RPCStat) :
    detailsStep (canonState pre) c = canonState (pre ++ [c]) := by
  by_cases hm : c.name ∈ namesOf pre
  · have hgetB : mapGet ((namesOf pre).map fun n => (n, (⟨countOf pre n, costOf pre n⟩ : CVal)))
        c.name = some ⟨countOf pre c.name, costOf pre c.name⟩ := by
      rw [mapGet_map_names]; simp [hm]
    have hgetD : mapGet ((namesOf pre).map fun n => (n, durOf pre n)) c.name
        = some (durOf pre c.name) := by
      rw [mapGet_map_names]; simp [hm]
    have hnames : namesOf (pre ++ [c]) = namesOf pre := by
      rw [namesOf_append_single, insertName, if_pos hm]
    have hB : mapSet ((namesOf pre).map fun n => (n, (⟨countOf pre n, costOf pre n⟩ : CVal)))
          c.name ⟨countOf pre c.name + 1, costOf pre c.name + c.cost⟩
        = (namesOf pre).map fun n => (n, (⟨countOf (pre ++ [c]) n, costOf (pre ++ [c]) n⟩ : CVal)) := by
      rw [mapSet_map_update _ _ _ _ (namesOf_nodup pre) hm]
      refine List.map_congr_left fun n hn => ?_
      by_cases h : n = c.name
      · subst h; simp [countOf_append_single, costOf_append_single]
      · have h' : ¬ c.name = n := fun e => h e.symm
        simp [h, countOf_append_single, costOf_append_single, h']
    have hD : mapSet ((namesOf pre).map fun n => (n, durOf pre n)) c.name
          (durOf pre c.name + c.duration)
        = (namesOf pre).map fun n => (n, durOf (pre ++ [c]) n) := by
      rw [mapSet_map_update _ _ _ _ (namesOf_nodup pre) hm]
      refine List.map_congr_left fun n hn => ?_
      by_cases h : n = c.name
      · subst h; simp [durOf_append_single]
      · have h' : ¬ c.name = n := fun e => h e.symm
        simp [h, durOf_append_single, h']
    simp only [detailsStep, canonState, hgetB, hgetD, Option.isSome_some, if_pos,
      Option.getD_some, hnames, sumDur_append_single, hB, hD]
  · have hgetB : mapGet ((namesOf pre).map fun n => (n, (⟨countOf pre n, costOf pre n⟩ : CVal)))
        c.name = none := by
      rw [mapGet_map_names]; simp [hm]
    have hkeysB := keys_map_ne (namesOf pre) (fun n => (⟨countOf pre n, costOf pre n⟩ : CVal)) c.name hm
    have hkeysD := keys_map_ne (namesOf pre) (fun n => durOf pre n) c.name hm
    have hdc0 : mapSet ((namesOf pre).map fun n => (n, durOf pre n)) c.name 0
        = ((namesOf pre).map fun n => (n, durOf pre n)) ++ [(c.name, 0)] :=
      mapSet_fresh _ _ _ hkeysD
    have hgetD2 : mapGet (((namesOf pre).map fun n => (n, durOf pre n)) ++ [(c.name, 0)])
        c.name = some 0 := mapGet_append_fresh _ _ _ hkeysD
    have hsetD2 : mapSet (((namesOf pre).map fun n => (n, durOf pre n)) ++ [(c.name, 0)])
          c.name (0 + c.duration)
        = ((namesOf pre).map fun n => (n, durOf pre n)) ++ [(c.name, 0 + c.duration)] :=
      mapSet_append_last _ _ _ _ hkeysD
    have hsetB : mapSet ((namesOf pre).map fun n => (n, (⟨countOf pre n, costOf pre n⟩ : CVal)))
          c.name ⟨(⟨0, 0⟩ : CVal).count + 1, (⟨0, 0⟩ : CVal).cost + c.cost⟩
        = ((namesOf pre).map fun n => (n, (⟨countOf pre n, costOf pre n⟩ : CVal)))
            ++ [(c.name, ⟨1, c.cost⟩)] := by
      rw [mapSet_fresh _ _ _ hkeysB]
      norm_num
    have hnames : namesOf (pre ++ [c]) = namesOf pre ++ [c.name] := by
      rw [namesOf_append_single, insertName, if_neg hm]
    have hBmap : (namesOf pre).map
          (fun n => (n, (⟨countOf (pre ++ [c]) n, costOf (pre ++ [c]) n⟩ : CVal)))
        = (namesOf pre).map fun n => (n, (⟨countOf pre n, costOf pre n⟩ : CVal)) := by
      refine List.map_congr_left fun n hn => ?_
      have h' : ¬ c.name = n := fun e => hm (e ▸ hn)
      simp [countOf_append_single, costOf_append_single, h']
    have hDmap : (namesOf pre).map (fun n => (n, durOf (pre ++ [c]) n))
        = (namesOf pre).map fun n => (n, durOf pre n) := by
      refine List.map_congr_left fun n hn => ?_
      have h' : ¬ c.name = n := fun e => hm (e ▸ hn)
      simp [durOf_append_single, h']
    have hcm : countOf (pre ++ [c]) c.name = 1 := by
      rw [countOf_append_single, countOf_not_mem pre _ hm]; simp
    have hcostm : costOf (pre ++ [c]) c.name = c.cost := by
      rw [costOf_append_single, costOf_not_mem pre _ hm]; simp
    have hdurm : durOf (pre ++ [c]) c.name = c.duration := by
      rw [durOf_append_single, durOf_not_mem pre _ hm]; simp
    simp only [detailsStep, canonState, hgetB, Option.isSome_none, Bool.false_eq_true, if_false,
      Option.getD_none, hdc0, hgetD2, Option.getD_some, hsetD2, hsetB, hnames,
      List.map_append, List.map_cons, List.map_nil, hBmap, hDmap, hcm, hcostm, hdurm,
      sumDur_append_single]
    norm_num

/-- The aggregation loop computes the canonical state. -/
theorem foldl_canon :
    ∀ (rest pre : List RPCStat),
      rest.foldl detailsStep (canonState pre) = canonState (pre ++ rest) := by
  intro rest
  induction rest with
  | nil => intro pre; simp
  | cons r t ih =>
    intro pre
    calc (r :: t).foldl detailsStep (canonState pre)
        = t.foldl detailsStep (detailsStep (canonState pre) r) := rfl
      _ = t.foldl detailsStep (canonState (pre ++ [r])) := by rw [detailsStep_canon]
      _ = canonState ((pre ++ [r]) ++ t) := ih (pre ++ [r])
      _ = canonState (pre ++ r :: t) := by simp

/-- The loop state for a full call list is the canonical state. -/
theorem detailsLoop_eq_canon (calls : List RPCStat) :
    detailsLoop calls = canonState calls := by
  have h0 : (⟨[], [], 0⟩ : DetailsState) = canonState [] := rfl
  unfold detailsLoop
  rw [h0, foldl_canon calls []]
  simp

/-- The rows built from the loop state are the canonical per-name rows in
first-occurrence order of the names. -/
theorem buildRows_canon (calls : List RPCStat) :
    buildRows (detailsLoop calls) = (namesOf calls).map (rowOf calls) := by
  rw [detailsLoop_eq_canon]
  unfold buildRows canonState
  rw [List.map_map]
  refine List.map_congr_left fun n hn => ?_
  simp only [Function.comp_apply, rowOf]
  rw [mapGet_map_names]
  simp [hn]

/-! Summation helpers and the conservation lemmas. -/

theorem sum_map_zero {M : Type} [AddCommMonoid M] (l : List α) :
    (l.map fun _ => (0 : M)).sum = 0 := by
  induction l with
  | nil => simp
  | cons a t ih => simp [ih]

theorem sum_map_add {M : Type} [AddCommMonoid M] (l : List α) (f g : α → M) :
    (l.map fun a => f a + g a).sum = (l.map f).sum + (l.map g).sum := by
  induction l with
  | nil => simp
  | cons a t ih =>
    simp only [List.map_cons, List.sum_cons, ih]
    abel

theorem sum_map_ite_eq {M : Type} [AddCommMonoid M] (ns : List String) (m : String) (v : M)
    (hnd : ns.Nodup) (hm : m ∈ ns) :
    (ns.map fun n => if m = n then v else 0).sum = v := by
  induction ns with
  | nil => simp at hm
  | cons n t ih =>
    rcases List.nodup_cons.mp hnd with ⟨hn, hndt⟩
    by_cases h : m = n
    · subst h
      have : t.map (fun n => if m = n then v else 0) = t.map fun _ => 0 :=
        List.map_congr_left fun x hx => by
          have : m ≠ x := fun e => hn (e ▸ hx)
          simp [this]
      simp [this, sum_map_zero]
    · have hmt : m ∈ t := by
        rcases List.mem_cons.mp hm with h' | h'
        · exact absurd h' h
        · exact h'
      simp [h, ih hndt hmt]

theorem sum_map_one (l : List α) : (l.map fun _ => (1 : Nat)).sum = l.length := by
  induction l with
  | nil => simp
  | cons a t ih => simp [ih, Nat.add_comm]

/-- Summing any event weight groupwise over a covering duplicate-free name
list gives the total over all events. -/
theorem sum_over_names {M : Type} [AddCommMonoid M] (w : RPCStat → M) :
    ∀ (calls : List RPCStat) (ns : List String), ns.Nodup →
      (∀ c ∈ calls, c.name ∈ ns) →
      (ns.map fun n => ((calls.filter fun c => c.name = n).map w).sum).sum
        = (calls.map w).sum := by
  intro calls
  induction calls with
  | nil =>
    intro ns _ _
    simp [sum_map_zero]
  | cons c rest ih =>
    intro ns hnd hcov
    have hpt : ∀ n ∈ ns,
        ((((c :: rest).filter fun d => d.name = n)).map w).sum
          = (if c.name = n then w c else 0)
            + ((rest.filter fun d => d.name = n).map w).sum := by
      intro n _
      by_cases h : c.name = n
      · simp [List.filter_cons, h]
      · simp [List.filter_cons, h]
    rw [List.map_congr_left hpt, sum_map_add,
      sum_map_ite_eq ns c.name (w c) hnd (hcov c (by simp)),
      ih ns hnd (fun d hd => hcov d (by simp [hd]))]
    simp

theorem sum_countOf (calls : List RPCStat) :
    ((namesOf calls).map fun n => countOf calls n).sum = calls.length := by
  have h := sum_over_names (fun _ => (1 : Nat)) calls (namesOf calls) (namesOf_nodup calls)
    (fun c hc => (mem_namesOf calls c.name).mpr ⟨c, hc, rfl⟩)
  have h2 : ((namesOf calls).map fun n =>
        ((calls.filter fun c => c.name = n).map fun _ => (1 : Nat)).sum).sum
      = ((namesOf calls).map fun n => countOf calls n).sum := by
    refine congrArg List.sum (List.map_congr_left fun n _ => ?_)
    rw [sum_map_one]
    rfl
  rw [h2] at h
  rw [h, sum_map_one]

theorem sum_costOf (calls : List RPCStat) :
    ((namesOf calls).map fun n => costOf calls n).sum = (calls.map RPCStat.cost).sum := by
  exact sum_over_names RPCStat.cost calls (namesOf calls) (namesOf_nodup calls)
    (fun c hc => (mem_namesOf calls c.name).mpr ⟨c, hc, rfl⟩)

theorem sum_durOf (calls : List RPCStat) :
    ((namesOf calls).map fun n => durOf calls n).sum = (calls.map RPCStat.duration).sum := by
  exact sum_over_names RPCStat.duration calls (namesOf calls) (namesOf_nodup calls)
    (fun c hc => (mem_namesOf calls c.name).mpr ⟨c, hc, rfl⟩)

/-- On a present record, Details packages exactly the sorted rows and the
running duration total of the loop. -/
theorem details_success_spec {β : Type} (appId : String) (item : Option β)
    (decode : β → Option StatsFull) (rec : RequestStats)
    (h : (Details appId item decode).Record = some rec) :
    (Details appId item decode).AllStatsByCount
        = List.mergeSort (buildRows (detailsLoop rec.RPCStats)) statLe
    ∧ (Details appId item decode).Real = (detailsLoop rec.RPCStats).real := by
  cases item with
  | none => simp [Details, emptyDetailsView] at h
  | some b =>
    cases hd : decode b with
    | none => simp [Details, hd, emptyDetailsView] at h
    | some full =>
      have hrec : full.Stats = rec := by simpa [Details, hd] using h
      subst hrec
      constructor <;> simp [Details, hd]

/-- C1. Count conservation: whenever the Details view holds a record, the
counts of the aggregate rows sum to the number of call events of the
record. -/
theorem C1_count_conservation {β : Type} (appId : String) (item : Option β)
    (decode : β → Option StatsFull) (rec : RequestStats)
    (h : (Details appId item decode).Record = some rec) :
    (((Details appId item decode).AllStatsByCount).map StatByName.Count).sum
      = rec.RPCStats.length := by
  rw [(details_success_spec appId item decode rec h).1]
  have hperm := List.mergeSort_perm (buildRows (detailsLoop rec.RPCStats)) statLe
  rw [(hperm.map StatByName.Count).sum_eq, buildRows_canon, List.map_map]
  have hcomp : (StatByName.Count ∘ rowOf rec.RPCStats) = fun n => countOf rec.RPCStats n := rfl
  rw [hcomp, sum_countOf]

/-- Witness for C1: the sample record has three call events and the row
counts sum to three. -/
theorem C1_count_conservation_witness :
    (((Details "app" (some 0) (fun _ : Nat => some sampleFull)).AllStatsByCount).map
        StatByName.Count).sum
      = sampleFull.Stats.RPCStats.length :=
  C1_count_conservation "app" (some 0) (fun _ : Nat => some sampleFull) sampleFull.Stats rfl

/-- C3. Graceful degradation: on a cache miss or a decode failure the
Details flow renders the view with only the environment metadata populated:
absent record, empty rows, empty header, zero duration. -/
theorem C3_graceful_degradation {β : Type} (appId : String) (item : Option β)
    (decode : β → Option StatsFull)
    (h : item = none ∨ ∃ b, item = some b ∧ decode b = none) :
    (Details appId item decode).Record = none
    ∧ (Details appId item decode).AllStatsByCount = []
    ∧ (Details appId item decode).Real = 0
    ∧ (Details appId item decode).Header = []
    ∧ (Details appId item decode).Env = [("APPLICATION_ID", appId)] := by
  rcases h with rfl | ⟨b, rfl, hd⟩
  · simp [Details, emptyDetailsView]
  · simp [Details, hd, emptyDetailsView]

/-- Witness for C3: a concrete cache miss yields the degraded view. -/
theorem C3_graceful_degradation_witness :
    (Details "app" (none : Option Nat) (fun _ => some sampleFull)).Record = none
    ∧ (Details "app" (none : Option Nat) (fun _ => some sampleFull)).AllStatsByCount = []
    ∧ (Details "app" (none : Option Nat) (fun _ => some sampleFull)).Real = 0
    ∧ (Details "app" (none : Option Nat) (fun _ => some sampleFull)).Header = []
    ∧ (Details "app" (none : Option Nat) (fun _ => some sampleFull)).Env
        = [("APPLICATION_ID", "app")] :=
  C3_graceful_degradation "app" (none : Option Nat) (fun _ => some sampleFull) (Or.inl rfl)

/-- C4. Approximate total elapsed time: whenever the Details view holds a
record, its Real field is the sum of the durations of all call events. -/
theorem C4_approx_total_duration {β : Type} (appId : String) (item : Option β)
    (decode : β → Option StatsFull) (rec : RequestStats)
    (h : (Details appId item decode).Record = some rec) :
    (Details appId item decode).Real = (rec.RPCStats.map RPCStat.duration).sum := by
  rw [(details_success_spec appId item decode rec h).2, detailsLoop_eq_canon]
  rfl

/-- Witness for C4 at the sample record: total duration 80. -/
theorem C4_approx_total_duration_witness :
    (Details "app" (some 0) (fun _ : Nat => some sampleFull)).Real
      = (sampleFull.Stats.RPCStats.map RPCStat.duration).sum :=
  C4_approx_total_duration "app" (some 0) (fun _ : Nat => some sampleFull) sampleFull.Stats rfl

/-- C5. Cost conservation: whenever the Details view holds a record, the
total costs of the aggregate rows sum to the total cost of all call
events. -/
theorem C5_cost_conservation {β : Type} (appId : String) (item : Option β)
    (decode : β → Option StatsFull) (rec : RequestStats)
    (h : (Details appId item decode).Record = some rec) :
    (((Details appId item decode).AllStatsByCount).map StatByName.Cost).sum
      = (rec.RPCStats.map RPCStat.cost).sum := by
  rw [(details_success_spec appId item decode rec h).1]
  have hperm := List.mergeSort_perm (buildRows (detailsLoop rec.RPCStats)) statLe
  rw [(hperm.map StatByName.Cost).sum_eq, buildRows_canon, List.map_map]
  have hcomp : (StatByName.Cost ∘ rowOf rec.RPCStats) = fun n => costOf rec.RPCStats n := rfl
  rw [hcomp, sum_costOf]

/-- Witness for C5 at the sample record: costs 10+15+20. -/
theorem C5_cost_conservation_witness :
    (((Details "app" (some 0) (fun _ : Nat => some sampleFull)).AllStatsByCount).map
        StatByName.Cost).sum
      = (sampleFull.Stats.RPCStats.map RPCStat.cost).sum :=
  C5_cost_conservation "app" (some 0) (fun _ : Nat => some sampleFull) sampleFull.Stats rfl

/-- C9. Duration conservation: whenever the Details view holds a record,
the row durations sum to the Real field, and the Real field is the sum of
the durations of all call events. -/
theorem C9_duration_conservation {β : Type} (appId : String) (item : Option β)
    (decode : β → Option StatsFull) (rec : RequestStats)
    (h : (Details appId item decode).Record = some rec) :
    (((Details appId item decode).AllStatsByCount).map StatByName.Duration).sum
        = (Details appId item decode).Real
    ∧ (Details appId item decode).Real = (rec.RPCStats.map RPCStat.duration).sum := by
  have hreal : (Details appId item decode).Real = (rec.RPCStats.map RPCStat.duration).sum := by
    rw [(details_success_spec appId item decode rec h).2, detailsLoop_eq_canon]
    rfl
  refine ⟨?_, hreal⟩
  rw [(details_success_spec appId item decode rec h).1, hreal]
  have hperm := List.mergeSort_perm (buildRows (detailsLoop rec.RPCStats)) statLe
  rw [(hperm.map StatByName.Duration).sum_eq, buildRows_canon, List.map_map]
  have hcomp : (StatByName.Duration ∘ rowOf rec.RPCStats) = fun n => durOf rec.RPCStats n := rfl
  rw [hcomp, sum_durOf]

/-- Witness for C9 at the sample record. -/
theorem C9_duration_conservation_witness :
    (((Details "app" (some 0) (fun _ : Nat => some sampleFull)).AllStatsByCount).map
        StatByName.Duration).sum
      = (Details "app" (some 0) (fun _ : Nat => some sampleFull)).Real
    ∧ (Details "app" (some 0) (fun _ : Nat => some sampleFull)).Real
      = (sampleFull.Stats.RPCStats.map RPCStat.duration).sum :=
  C9_duration_conservation "app" (some 0) (fun _ : Nat => some sampleFull) sampleFull.Stats rfl

/-! The row order: characterization, totality, transitivity, and
uniqueness of the sorted permutation. -/

theorem statLe_iff (a b : StatByName) : statLe a b = true ↔ specRowOrder a b := by
  unfold statLe statLess specRowOrder
  split_ifs with h1 h2
  · simp only [Bool.not_eq_true', decide_eq_false_iff_not, not_lt]
    constructor
    · intro h
      exact Or.inr ⟨h1.symm, Or.inr ⟨h2.symm, h⟩⟩
    · rintro (h | ⟨-, (h | ⟨-, h⟩)⟩)
      · exact absurd h (by omega)
      · exact absurd h (by omega)
      · exact h
  · simp only [Bool.not_eq_true', decide_eq_false_iff_not, not_lt]
    constructor
    · intro h
      exact Or.inr ⟨h1.symm, Or.inl (by omega)⟩
    · rintro (h | ⟨-, (h | ⟨he, -⟩)⟩)
      · exact absurd h (by omega)
      · omega
      · exact absurd he (by omega)
  · simp only [Bool.not_eq_true', decide_eq_false_iff_not, not_lt]
    constructor
    · intro h
      exact Or.inl (by omega)
    · rintro (h | ⟨he, -⟩)
      · omega
      · exact absurd he (by omega)

theorem statLe_total (a b : StatByName) : statLe a b || statLe b a := by
  rw [Bool.or_eq_true, statLe_iff, statLe_iff]
  unfold specRowOrder
  rcases lt_trichotomy a.Cost b.Cost with h | h | h
  · exact Or.inr (Or.inl h)
  · rcases lt_trichotomy a.Count b.Count with h2 | h2 | h2
    · exact Or.inr (Or.inr ⟨h.symm, Or.inl h2⟩)
    · rcases le_total a.Name b.Name with h3 | h3
      · exact Or.inl (Or.inr ⟨h, Or.inr ⟨h2, h3⟩⟩)
      · exact Or.inr (Or.inr ⟨h.symm, Or.inr ⟨h2.symm, h3⟩⟩)
    · exact Or.inl (Or.inr ⟨h, Or.inl h2⟩)
  · exact Or.inl (Or.inl h)

theorem statLe_trans (a b c : StatByName) (hab : statLe a b) (hbc : statLe b c) :
    statLe a c := by
  rw [statLe_iff] at hab hbc
  rw [statLe_iff]
  unfold specRowOrder at hab hbc ⊢
  rcases hab with h1 | ⟨e1, hab2⟩
  · rcases hbc with h2 | ⟨e2, hbc2⟩
    · exact Or.inl (by omega)
    · exact Or.inl (by omega)
  · rcases hbc with h2 | ⟨e2, hbc2⟩
    · exact Or.inl (by omega)
    · refine Or.inr ⟨by omega, ?_⟩
      rcases hab2 with h1 | ⟨ec1, hn1⟩
      · rcases hbc2 with h2 | ⟨ec2, hn2⟩
        · exact Or.inl (by omega)
        · exact Or.inl (by omega)
      · rcases hbc2 with h2 | ⟨ec2, hn2⟩
        · exact Or.inl (by omega)
        · exact Or.inr ⟨by omega, le_trans hn1 hn2⟩

theorem statLe_antisymm_of_eq (a b : StatByName) (hab : statLe a b) (hba : statLe b a) :
    a.Cost = b.Cost ∧ a.Count = b.Count ∧ a.Name = b.Name := by
  rw [statLe_iff] at hab hba
  unfold specRowOrder at hab hba
  rcases hab with h1 | ⟨e1, hab2⟩
  · rcases hba with h2 | ⟨e2, hba2⟩
    · exfalso; omega
    · exfalso; omega
  · rcases hba with h2 | ⟨e2, hba2⟩
    · exfalso; omega
    · refine ⟨e1, ?_⟩
      rcases hab2 with h1 | ⟨ec1, hn1⟩
      · rcases hba2 with h2 | ⟨ec2, hn2⟩
        · exfalso; omega
        · exfalso; omega
      · rcases hba2 with h2 | ⟨ec2, hn2⟩
        · exfalso; omega
        · exact ⟨ec1, le_antisymm hn1 hn2⟩

/-- Two rows of the same aggregation with the same name are the same row. -/
theorem rows_name_inj (calls : List RPCStat) (a b : StatByName)
    (ha : a ∈ buildRows (detailsLoop calls)) (hb : b ∈ buildRows (detailsLoop calls))
    (hn : a.Name = b.Name) : a = b := by
  rw [buildRows_canon] at ha hb
  rcases List.mem_map.mp ha with ⟨n1, _, rfl⟩
  rcases List.mem_map.mp hb with ⟨n2, _, rfl⟩
  have h12 : n1 = n2 := hn
  rw [h12]

/-- Two sorted permutations of each other agree, given antisymmetry of the
relation on the members of the list. -/
theorem eq_of_perm_of_pairwise {α : Type} {R : α → α → Prop} :
    ∀ {l₁ l₂ : List α}, l₁.Perm l₂ → l₁.Pairwise R → l₂.Pairwise R →
      (∀ a ∈ l₁, ∀ b ∈ l₁, R a b → R b a → a = b) → l₁ = l₂ := by
  intro l₁
  induction l₁ with
  | nil =>
    intro l₂ p _ _ _
    exact (p.symm.eq_nil).symm
  | cons a t ih =>
    intro l₂ p s₁ s₂ anti
    cases l₂ with
    | nil => exact absurd p.eq_nil (by simp)
    | cons b t₂ =>
      by_cases hab : a = b
      · subst hab
        have p' : t.Perm t₂ := p.cons_inv
        have s₁' := (List.pairwise_cons.mp s₁).2
        have s₂' := (List.pairwise_cons.mp s₂).2
        have anti' : ∀ x ∈ t, ∀ y ∈ t, R x y → R y x → x = y := fun x hx y hy =>
          anti x (List.mem_cons_of_mem _ hx) y (List.mem_cons_of_mem _ hy)
        rw [ih p' s₁' s₂' anti']
      · exfalso
        have hb1 : b ∈ a :: t := p.symm.subset (List.mem_cons_self _ _)
        have ha2 : a ∈ b :: t₂ := p.subset (List.mem_cons_self _ _)
        have hbt : b ∈ t := by
          rcases List.mem_cons.mp hb1 with h | h
          · exact absurd h.symm hab
          · exact h
        have hat2 : a ∈ t₂ := by
          rcases List.mem_cons.mp ha2 with h | h
          · exact absurd h hab
          · exact h
        have rab : R a b := (List.pairwise_cons.mp s₁).1 b hbt
        have rba : R b a := (List.pairwise_cons.mp s₂).1 a hat2
        exact hab (anti a (List.mem_cons_self _ _) b (List.mem_cons_of_mem _ hbt) rab rba)

/-- C2. Deterministic row ordering: whenever the Details view holds a
record, its rows are sorted by the spec order (descending total cost, ties
descending count, remaining ties ascending name), and sorting any traversal
order (any permutation) of the grouped rows yields exactly this output. -/
theorem C2_deterministic_ordering {β : Type} (appId : String) (item : Option β)
    (decode : β → Option StatsFull) (rec : RequestStats)
    (h : (Details appId item decode).Record = some rec) :
    ((Details appId item decode).AllStatsByCount).Pairwise specRowOrder
    ∧ ∀ l : List StatByName, l.Perm (buildRows (detailsLoop rec.RPCStats)) →
        List.mergeSort l statLe = (Details appId item decode).AllStatsByCount := by
  have hrows := (details_success_spec appId item decode rec h).1
  rw [hrows]
  constructor
  · have hp := List.sorted_mergeSort statLe_trans statLe_total
      (buildRows (detailsLoop rec.RPCStats))
    exact hp.imp fun hab => (statLe_iff _ _).mp hab
  · intro l hl
    have h1 : (List.mergeSort l statLe).Perm
        (List.mergeSort (buildRows (detailsLoop rec.RPCStats)) statLe) :=
      (List.mergeSort_perm l statLe).trans
        (hl.trans (List.mergeSort_perm (buildRows (detailsLoop rec.RPCStats)) statLe).symm)
    have s1 := List.sorted_mergeSort statLe_trans statLe_total l
    have s2 := List.sorted_mergeSort statLe_trans statLe_total
      (buildRows (detailsLoop rec.RPCStats))
    refine eq_of_perm_of_pairwise h1 s1 s2 ?_
    intro x hx y hy hxy hyx
    have hx' : x ∈ buildRows (detailsLoop rec.RPCStats) :=
      hl.subset (List.mem_mergeSort.mp hx)
    have hy' : y ∈ buildRows (detailsLoop rec.RPCStats) :=
      hl.subset (List.mem_mergeSort.mp hy)
    exact rows_name_inj rec.RPCStats x y hx' hy'
      (statLe_antisymm_of_eq x y hxy hyx).2.2

/-- Witness for C2: a concrete permutation (the reversed row list) of the
sample record sorts to the packaged output. -/
theorem C2_deterministic_ordering_witness :
    List.mergeSort (buildRows (detailsLoop sampleFull.Stats.RPCStats)).reverse statLe
      = (Details "app" (some 0) (fun _ : Nat => some sampleFull)).AllStatsByCount :=
  (C2_deterministic_ordering "app" (some 0) (fun _ : Nat => some sampleFull)
      sampleFull.Stats rfl).2
    (buildRows (detailsLoop sampleFull.Stats.RPCStats)).reverse
    (List.reverse_perm _)

/-! Newline-split and line-numbering lemmas for the File flow. -/

theorem splitNl_ne_nil : ∀ (l : List Char), splitNl l ≠ [] := by
  intro l
  induction l with
  | nil => simp [splitNl]
  | cons c rest ih =>
    by_cases h : c = '\n'
    · simp [splitNl, h]
    · simp only [splitNl, h, if_false]
      cases hsp : splitNl rest with
      | nil => simp
      | cons a t => simp

theorem splitNl_length (l : List Char) :
    (splitNl l).length = l.count '\n' + 1 := by
  induction l with
  | nil => simp [splitNl]
  | cons c rest ih =>
    by_cases h : c = '\n'
    · subst h
      simp [splitNl, ih, List.count_cons]
    · simp only [splitNl, h, if_false]
      cases hsp : splitNl rest with
      | nil => exact absurd hsp (splitNl_ne_nil rest)
      | cons a t =>
        rw [hsp] at ih
        simp only [List.length_cons] at ih
        simp [List.count_cons, h]
        omega

theorem splitNl_append_nl (l : List Char) :
    splitNl (l ++ ['\n']) = splitNl l ++ [[]] := by
  induction l with
  | nil => rfl
  | cons c rest ih =>
    by_cases h : c = '\n'
    · simp [splitNl, h, ih]
    · simp only [List.cons_append, splitNl, h, if_false, List.append_eq]
      cases hsp : splitNl rest with
      | nil => exact absurd hsp (splitNl_ne_nil rest)
      | cons a t =>
        rw [ih, hsp]
        simp

theorem numberFrom_length : ∀ (i : Nat) (ls : List (List Char)),
    (numberFrom i ls).length = ls.length := by
  intro i ls
  induction ls generalizing i with
  | nil => rfl
  | cons v rest ih => simp [numberFrom, ih]

theorem numberFrom_keys : ∀ (i : Nat) (ls : List (List Char)),
    (numberFrom i ls).map Prod.fst = List.range' i ls.length := by
  intro i ls
  induction ls generalizing i with
  | nil => rfl
  | cons v rest ih =>
    rw [List.length_cons, List.range'_succ]
    simp [numberFrom, ih]

theorem numberFrom_append : ∀ (i : Nat) (l1 l2 : List (List Char)),
    numberFrom i (l1 ++ l2) = numberFrom i l1 ++ numberFrom (i + l1.length) l2 := by
  intro i l1
  induction l1 generalizing i with
  | nil => intro l2; simp [numberFrom]
  | cons v rest ih =>
    intro l2
    simp only [List.cons_append, List.append_eq, numberFrom, List.length_cons]
    rw [ih]
    have he : i + 1 + rest.length = i + (rest.length + 1) := by omega
    rw [he]

/-- C7. Hard failure on unreadable source: when the file store fails, the
File flow propagates that failure to the caller via serveError instead of
serving an empty snippet (unlike the Details flow's soft-fail policy). -/
theorem C7_source_unavailable (appId fname n : String)
    (readFile : String → Except String (List Char)) (e : String)
    (hrf : readFile fname = .error e) :
    File appId fname n readFile = .error e := by
  simp [File, hrf]

/-- Witness for C7: a file store that always fails makes the flow fail. -/
theorem C7_source_unavailable_witness :
    File "app" "/no/such/file" "10"
        (fun _ => .error "open /no/such/file: no such file or directory")
      = .error "open /no/such/file: no such file or directory" :=
  C7_source_unavailable "app" "/no/such/file" "10"
    (fun _ => .error "open /no/such/file: no such file or directory")
    "open /no/such/file: no such file or directory" rfl

/-- C8. Malformed line-number tolerance: a line-number parameter that is
not a valid integer (absent, empty, or non-numeric) parses to the zero
value 0 and the flow still serves the snippet. -/
theorem C8_malformed_lineno (appId fname n : String)
    (readFile : String → Except String (List Char)) (content : List Char)
    (hn : parseGoInt n = none) (hrf : readFile fname = .ok content) :
    File appId fname n readFile
      = .ok ⟨[("APPLICATION_ID", appId)], fname, 0, buildFp content⟩ := by
  simp [File, hrf, atoi, hn]

/-- Witness for C8: a non-numeric line number is served with line 0. -/
theorem C8_malformed_lineno_witness :
    File "app" "f.go" "abc" (fun _ => .ok "x".data)
      = .ok ⟨[("APPLICATION_ID", "app")], "f.go", 0, buildFp "x".data⟩ :=
  C8_malformed_lineno "app" "f.go" "abc" (fun _ => .ok "x".data) "x".data (by decide) rfl

/-- C6. Source mapping correctness: on a readable file the served snippet
maps exactly the L split lines to keys 1..L (first line at key 1), and the
highlight line is the parsed request parameter k unchanged — no hypothesis
bounds k, so this holds in particular when k exceeds L. -/
theorem C6_source_mapping (appId fname n : String)
    (readFile : String → Except String (List Char)) (content : List Char) (k : Int)
    (hrf : readFile fname = .ok content) (hk : parseGoInt n = some k) :
    File appId fname n readFile
      = .ok ⟨[("APPLICATION_ID", appId)], fname, k, buildFp content⟩
    ∧ (buildFp content).length = (splitNl content).length
    ∧ (buildFp content).map Prod.fst = List.range' 1 (splitNl content).length := by
  refine ⟨by simp [File, hrf, atoi, hk], ?_, ?_⟩
  · rw [buildFp, numberFrom_length]
  · rw [buildFp, numberFrom_keys]

/-- Witness for C6: a two-line file requested with highlight line 99. -/
theorem C6_source_mapping_witness :
    File "app" "f.go" "99" (fun _ => .ok "a\nb".data)
      = .ok ⟨[("APPLICATION_ID", "app")], "f.go", 99, buildFp "a\nb".data⟩
    ∧ (buildFp "a\nb".data).length = (splitNl "a\nb".data).length
    ∧ (buildFp "a\nb".data).map Prod.fst = List.range' 1 (splitNl "a\nb".data).length :=
  C6_source_mapping "app" "f.go" "99" (fun _ => .ok "a\nb".data) "a\nb".data 99 rfl (by decide)

/-- C10. Newline-split cardinality: the line map served by the File flow
has exactly (number of newlines) + 1 entries keyed consecutively from 1; a
trailing newline yields a final empty entry, the empty file yields the
single entry (1, ""), and the map is never empty. -/
theorem C10_newline_split (appId fname n : String)
    (readFile : String → Except String (List Char)) (content : List Char)
    (hrf : readFile fname = .ok content) :
    File appId fname n readFile
      = .ok ⟨[("APPLICATION_ID", appId)], fname, atoi n, buildFp content⟩
    ∧ (buildFp content).length = content.count '\n' + 1
    ∧ (buildFp content).map Prod.fst = List.range' 1 (content.count '\n' + 1)
    ∧ buildFp content ≠ []
    ∧ (content = [] → buildFp content = [(1, "")])
    ∧ ∀ l', content = l' ++ ['\n'] →
        (buildFp content).getLast? = some (content.count '\n' + 1, "") := by
  have hlen : (buildFp content).length = content.count '\n' + 1 := by
    rw [buildFp, numberFrom_length, splitNl_length]
  refine ⟨by simp [File, hrf], hlen, ?_, ?_, ?_, ?_⟩
  · rw [buildFp, numberFrom_keys, splitNl_length]
  · intro hnil
    rw [hnil] at hlen
    simp at hlen
  · intro hnil
    subst hnil
    rfl
  · intro l' hl
    subst hl
    rw [buildFp, splitNl_append_nl, numberFrom_append]
    simp only [numberFrom]
    rw [List.getLast?_concat, splitNl_length]
    have hc : (l' ++ ['\n']).count '\n' = l'.count '\n' + 1 := by
      rw [List.count_append]
      simp
    rw [hc]
    have he : 1 + (l'.count '\n' + 1) = l'.count '\n' + 1 + 1 := by omega
    rw [he]

/-- Witness for C10: the file "a\n" has two entries and a final empty
line. -/
theorem C10_newline_split_witness :
    (buildFp "a\n".data).length = "a\n".data.count '\n' + 1
    ∧ (buildFp "a\n".data).getLast? = some ("a\n".data.count '\n' + 1, "") :=
  ⟨(C10_newline_split "app" "f.go" "1" (fun _ => .ok "a\n".data) "a\n".data rfl).2.1,
   (C10_newline_split "app" "f.go" "1" (fun _ => .ok "a\n".data) "a\n".data rfl).2.2.2.2.2
     "a".data (by decide)⟩

/-- Sanity: the line map of a two-line file with trailing newline. -/
theorem buildFp_sample : buildFp "a\nb\n".data = [(1, "a"), (2, "b"), (3, "")] := by decide

/-- Sanity: Atoi syntax handling at concrete inputs. -/
theorem atoi_samples :
    atoi "17" = 17 ∧ atoi "abc" = 0 ∧ atoi "" = 0 ∧ atoi "-4" = -4 ∧ atoi "1x" = 0 := by
  refine ⟨by decide, by decide, by decide, by decide, by decide⟩

end Appstats
